import Mathlib

/-!
Verification of the fetch/cache core of the market-analysis repository.

Shallow embedding of `src/market_analysis/config.py`, `cachemanager.py`,
`asset.py`, `datafetcher.py` and `utils.py`.

Modelling conventions:
* A pandas DataFrame holding one price column is `DF`: its single column
  name, its (normalized, timezone-naive) date index as day numbers, its
  price values, and the `attrs["schema_version"]` entry.
* Timestamps are integers counting hours since an epoch that falls on a
  Monday at midnight; a calendar date is the floor division of a
  timestamp by 24; `d % 7 ∈ {5, 6}` marks weekend days.
* The cache directory is a map from file path to stored file; mutation is
  explicit state passing.  `CacheManager.save` mutates the caller's frame
  (`df.attrs["schema_version"] = ...`), which is modelled by `save`
  returning the updated frame next to the updated file system.
* A yfinance raw table is `RawTable`: a wall-clock hour index, an optional
  UTC offset (in hours) when the index is timezone-aware, and named
  columns.  `yf.Ticker(t).history(period="max")` is an oracle argument.
* A per-ticker fetch task of `DataFetcher.load_assets` either returns
  (`FetchOutcome.ok`, carrying `Asset.fetch`'s `DataFrame`-or-`None`
  result) or raises (`FetchOutcome.exn`); `future.result()` re-raises, so
  the batch result is an `Except`.  The executor's completion order is
  irrelevant because results are collected from the futures mapping in
  ticker-configuration order; theorems quantify over any permutation of
  the futures association list to express this.
-/

namespace MarketAnalysis

/-! ### Configuration constants (`config.py`) -/

def CACHE_DIR : String := "cache_history"

def CACHE_MAX_AGE : Int := 0

def SCHEMA_VERSION : String := "1.0"

def MAX_WORKERS : Nat := 6

/-! ### Data model -/

/-- A single-price-column pandas DataFrame: column name, normalized
timezone-naive date index (day numbers), prices, and the
`attrs["schema_version"]` entry (`none` when the attribute is absent). -/
structure DF where
  colName : String
  dates : List Int
  prices : List Int
  schemaVersion : Option String
  deriving Repr, DecidableEq

/-- A file persisted in the cache directory: the stored frame, and a flag
marking an unreadable/garbled file (reading it raises, which `load`
catches). -/
structure StoredFile where
  df : DF
  corrupt : Bool
  deriving Repr, DecidableEq

/-- The cache directory contents: path to stored file. -/
abbrev FS := String → Option StoredFile

/-- Write one file (the `df.to_parquet(path)` effect). -/
def FS.set (fs : FS) (p : String) (f : StoredFile) : FS :=
  fun q => if q = p then some f else fs q

/-! ### Business days (`pd.offsets.BDay().rollback`) -/

/-- Monday..Friday are business days; the epoch (day 0) is a Monday. -/
def isBusinessDay (d : Int) : Bool :=
  decide (d.emod 7 < 5)

/-- `pd.offsets.BDay().rollback(d)`: `d` itself when `d` is a business
day, otherwise the previous business day (the preceding Friday, for a
Saturday or Sunday). -/
def bdayRollback (d : Int) : Int :=
  if d.emod 7 < 5 then d else d - (d.emod 7 - 4)

/-! ### CacheManager (`cachemanager.py`) -/

structure CacheManager where
  cache_dir : String
  schema_version : String

/-- `os.path.join(self.cache_dir, f"{ticker}.parquet")`. -/
def get_cache_path (cm : CacheManager) (ticker : String) : String :=
  cm.cache_dir ++ "/" ++ ticker ++ ".parquet"

/-- `CacheManager.is_fresh`: false for an empty frame, otherwise compare
the newest index entry against the business-day rollback of today's date
(`today` is `pd.Timestamp.now().normalize()` as a day number). -/
def is_fresh (df : DF) (today : Int) : Bool :=
  match df.dates.max? with
  | none => false
  | some youngest => decide (bdayRollback today - youngest ≤ CACHE_MAX_AGE)

/-- `CacheManager.load`: missing file, unreadable file (the caught
exception branch) and schema-version mismatch all yield `None`. -/
def load (cm : CacheManager) (ticker : String) (fs : FS) : Option DF :=
  match fs (get_cache_path cm ticker) with
  | none => none
  | some file =>
      if file.corrupt then none
      else if file.df.schemaVersion = some cm.schema_version then some file.df
      else none

/-- `CacheManager.save`: stamp `df.attrs["schema_version"]` on the
caller's frame (returned first), then write the stamped frame to the
ticker's path (returned second). -/
def save (cm : CacheManager) (df : DF) (ticker : String) (fs : FS) : DF × FS :=
  let stamped := { df with schemaVersion := some cm.schema_version }
  (stamped, fs.set (get_cache_path cm ticker) ⟨stamped, false⟩)

/-! ### Raw provider tables and `Asset.fetch` (`asset.py`) -/

/-- A raw yfinance table: wall-clock hour index (in the index's own
timezone), an optional UTC offset in hours (`none` for a timezone-naive
index), and named columns. -/
structure RawTable where
  index : List Int
  tzOffset : Option Int
  cols : List (String × List Int)
  deriving Repr, DecidableEq

/-- First-match association-list lookup (column selection by name,
`futures.get(ticker)`). -/
def lookupA {β : Type} : List (String × β) → String → Option β
  | [], _ => none
  | (k, v) :: rest, key => if k = key then some v else lookupA rest key

structure Asset where
  ticker : String
  label : String
  cache_manager : CacheManager

/-- Result of one `Asset.fetch` call: the returned frame (`None` on
failure), the cache directory afterwards, and whether the provider
download (`yf.Ticker(...).history`) was invoked. -/
structure FetchResult where
  df : Option DF
  fs : FS
  downloaded : Bool

/-- The download-and-normalize path of `Asset.fetch` (lines after the
cache check): empty provider result returns `None`; prefer the
`"Adj Close"` column, fall back to `"Close"`, rename it `"AdjClose"`;
a timezone-aware index is converted to UTC and stripped, then every
timestamp is truncated to its calendar date; the result is saved. -/
def downloadAndNormalize (cm : CacheManager) (ticker : String) (hist : RawTable)
    (fs : FS) : FetchResult :=
  if hist.index.isEmpty then ⟨none, fs, true⟩
  else
    let selected : Option (List Int) :=
      match lookupA hist.cols "Adj Close" with
      | some v => some v
      | none => lookupA hist.cols "Close"
    match selected with
    | none => ⟨none, fs, true⟩
    | some v =>
        let naive : List Int :=
          match hist.tzOffset with
          | some o => hist.index.map (fun w => w - o)
          | none => hist.index
        let dates := naive.map (fun t => t.fdiv 24)
        let df : DF := ⟨"AdjClose", dates, v, none⟩
        let saved := save cm df ticker fs
        ⟨some saved.1, saved.2, true⟩

/-- `Asset.fetch`: adopt a present-and-fresh cached frame without any
download, otherwise run the download path. -/
def Asset.fetch (a : Asset) (today : Int) (hist : RawTable) (fs : FS) : FetchResult :=
  match load a.cache_manager a.ticker fs with
  | some cached =>
      if is_fresh cached today then ⟨some cached, fs, false⟩
      else downloadAndNormalize a.cache_manager a.ticker hist fs
  | none => downloadAndNormalize a.cache_manager a.ticker hist fs

/-! ### DataFetcher (`datafetcher.py`) -/

/-- What a submitted per-ticker task did: returned `Asset.fetch`'s result
(a frame or `None`), or raised an exception. -/
inductive FetchOutcome where
  | ok (df : Option DF)
  | exn (msg : String)
  deriving Repr, DecidableEq

def FetchOutcome.isExn : FetchOutcome → Bool
  | .exn _ => true
  | .ok _ => false

def FetchOutcome.yields : FetchOutcome → Bool
  | .ok (some _) => true
  | _ => false

/-- The futures mapping `{asset.ticker: executor.submit(asset.fetch)}`,
built in ticker-configuration order. -/
def mkFutures (config : List String) (outcome : String → FetchOutcome) :
    List (String × FetchOutcome) :=
  config.map (fun t => (t, outcome t))

/-- The result-assembly loop of `DataFetcher.load_assets`: walk the
ticker configuration in order; skip a ticker absent from the futures
mapping; `future.result()` re-raises a task's exception to the caller
(`Except.error`); a `None` frame is silently omitted; a frame is appended
under its ticker. -/
def assembleResults : List String → List (String × FetchOutcome) →
    Except String (List (String × DF))
  | [], _ => .ok []
  | t :: rest, futures =>
      match lookupA futures t with
      | none => assembleResults rest futures
      | some (.exn e) => .error e
      | some (.ok none) => assembleResults rest futures
      | some (.ok (some df)) =>
          match assembleResults rest futures with
          | .error e => .error e
          | .ok l => .ok ((t, df) :: l)

/-- `DataFetcher.load_assets` over the ordered ticker configuration,
with `outcome` giving each ticker's task outcome. -/
def load_assets (config : List String) (outcome : String → FetchOutcome) :
    Except String (List (String × DF)) :=
  assembleResults config (mkFutures config outcome)

/-! ### `safe_filename` (`utils.py`) -/

/-- Python `str.strip()` whitespace (only ASCII characters survive the
preceding `encode("ASCII", "ignore")`). -/
def pyIsSpace (c : Char) : Bool :=
  c == ' ' || c == '\t' || c == '\n' || c == '\r' || c == '\x0b' || c == '\x0c'

/-- The characters removed by `re.sub(r'[<>:"/\\|?*]', "", s)`. -/
def specialChars : List Char :=
  ['<', '>', ':', '"', '/', '\\', '|', '?', '*']

/-- The character class kept by `re.sub(r"[^A-Za-z0-9._-]", "", s)`. -/
def isAllowedChar (c : Char) : Bool :=
  ('A' ≤ c && c ≤ 'Z') || ('a' ≤ c && c ≤ 'z') || ('0' ≤ c && c ≤ '9')
    || c == '.' || c == '_' || c == '-'

/-- `re.sub(r"_+", "_", s)`: collapse each run of underscores to one. -/
def collapseUnderscores : List Char → List Char
  | [] => []
  | [c] => [c]
  | c₁ :: c₂ :: rest =>
      if c₁ = '_' ∧ c₂ = '_' then collapseUnderscores (c₂ :: rest)
      else c₁ :: collapseUnderscores (c₂ :: rest)

/-- Python `str.strip(chars)`: drop matching characters from both ends. -/
def stripWhile (p : Char → Bool) (l : List Char) : List Char :=
  List.rdropWhile p (List.dropWhile p l)

/-- The characters stripped by the final `s.strip("_.")`. -/
def stripPred (c : Char) : Bool :=
  c == '_' || c == '.'

/-- `utils.safe_filename`.  The Unicode NFKD normalization table is
external to the repository, so that step is a parameter `nfkd`; its
output immediately passes `encode("ASCII", "ignore")`, which drops every
non-ASCII character. -/
def safe_filename (nfkd : String → String) (s : String) : String :=
  let l0 := (nfkd s).toList.filter (fun c => c.toNat ≤ 127)
  let l1 := (stripWhile pyIsSpace l0).map (fun c => if c = ' ' then '_' else c)
  let l2 := l1.filter (fun c => !(specialChars.contains c))
  let l3 := l2.filter isAllowedChar
  let l4 := collapseUnderscores l3
  String.mk (stripWhile stripPred l4)

/-! ### Concrete sample values (used by witnesses) -/

def sampleCM : CacheManager := ⟨CACHE_DIR, SCHEMA_VERSION⟩

def sampleAsset : Asset := ⟨"TEST", "Test", sampleCM⟩

def sampleDF : DF := ⟨"AdjClose", [0], [100], none⟩

def emptyFS : FS := fun _ => none

/-- A cached frame current through day 7 (a Monday), stamped with the
configured schema version. -/
def freshDF : DF := ⟨"AdjClose", [7], [100], some SCHEMA_VERSION⟩

def fsFresh : FS :=
  FS.set emptyFS (get_cache_path sampleCM "TEST") ⟨freshDF, false⟩

def rawAdj : RawTable := ⟨[26, 50], none, [("Adj Close", [100, 105])]⟩

def rawClose : RawTable := ⟨[26], none, [("Close", [100])]⟩

def rawNoCol : RawTable := ⟨[26], none, [("Open", [1])]⟩

def rawEmpty : RawTable := ⟨[], none, []⟩

/-- A timezone-aware table at UTC+2: local wall clock 01:00 of day 0 is
23:00 UTC of day −1, so its UTC calendar date differs from the local one. -/
def rawTz : RawTable := ⟨[1, 26], some 2, [("Adj Close", [100, 105])]⟩

/-- The frame `Asset.fetch` produces from `rawTz` (dates are UTC days). -/
def tzDF : DF := ⟨"AdjClose", [-1, 1], [100, 105], some SCHEMA_VERSION⟩

def cfgW : List String := ["AAA", "BBB", "CCC"]

def outcomeW : String → FetchOutcome :=
  fun t => if t = "CCC" then .ok none else .ok (some sampleDF)

/-- The futures association list in a completion order different from the
submission order. -/
def futuresW : List (String × FetchOutcome) :=
  [("CCC", .ok none), ("BBB", .ok (some sampleDF)), ("AAA", .ok (some sampleDF))]

def outcomeE : String → FetchOutcome :=
  fun t => if t = "BBB" then .exn "ProviderFailure" else .ok (some sampleDF)

/-! ### Theorems -/

/-- C3: `save` followed by `load` under the same configured schema
version returns the stored frame (not absent) with the price series of
the frame that was saved; `load` of an entry whose stamped schema version
differs from the configured one returns absent. -/
theorem cache_save_load_round_trip (cm : CacheManager) (df : DF) (ticker : String)
    (fs : FS) :
    (load cm ticker (save cm df ticker fs).2 = some ((save cm df ticker fs).1)
      ∧ ((save cm df ticker fs).1).dates = df.dates
      ∧ ((save cm df ticker fs).1).prices = df.prices)
    ∧ (∀ file : StoredFile, fs (get_cache_path cm ticker) = some file →
        file.corrupt = false → file.df.schemaVersion ≠ some cm.schema_version →
        load cm ticker fs = none) := by
  constructor
  · refine ⟨?_, rfl, rfl⟩
    simp [load, save, FS.set]
  · intro file hfile hcorr hver
    simp [load, hfile, hcorr, hver]

/-- Witness for C3 at a concrete frame, ticker and cache directory. -/
theorem cache_save_load_round_trip_witness :
    load sampleCM "TEST" (save sampleCM sampleDF "TEST" emptyFS).2
      = some ((save sampleCM sampleDF "TEST" emptyFS).1)
    ∧ load sampleCM "TEST"
        (FS.set emptyFS (get_cache_path sampleCM "TEST")
          ⟨{ sampleDF with schemaVersion := some "9.9" }, false⟩) = none := by
  refine ⟨(cache_save_load_round_trip sampleCM sampleDF "TEST" emptyFS).1.1, ?_⟩
  exact (cache_save_load_round_trip sampleCM sampleDF "TEST"
      (FS.set emptyFS (get_cache_path sampleCM "TEST")
        ⟨{ sampleDF with schemaVersion := some "9.9" }, false⟩)).2
    ⟨{ sampleDF with schemaVersion := some "9.9" }, false⟩
    (by rw [FS.set, if_pos rfl]) rfl (by decide)

/-- C4: with the default maximum cache age 0, a non-empty entry whose
newest date equals the business-day rollback of today (today when today
is a business day, otherwise the prior business day) is fresh; an entry
one day older is stale; an empty entry is never fresh. -/
theorem is_fresh_boundary (today : Int) (df : DF) :
    (df.dates.max? = some (bdayRollback today) → is_fresh df today = true)
    ∧ (df.dates.max? = some (bdayRollback today - 1) → is_fresh df today = false)
    ∧ (df.dates = [] → is_fresh df today = false) := by
  refine ⟨fun hmax => ?_, fun hmax => ?_, fun hnil => ?_⟩
  · simp only [is_fresh, hmax, CACHE_MAX_AGE]
    simp
  · simp only [is_fresh, hmax, CACHE_MAX_AGE]
    simp
  · simp [is_fresh, hnil]

/-- Witness for C4 on day 7 (a Monday): newest date 7 is fresh, newest
date 6 is stale, and the empty frame is stale. -/
theorem is_fresh_boundary_witness :
    is_fresh ⟨"AdjClose", [7], [100], none⟩ 7 = true
    ∧ is_fresh ⟨"AdjClose", [6], [100], none⟩ 7 = false
    ∧ is_fresh ⟨"AdjClose", [], [], none⟩ 7 = false := by
  refine ⟨(is_fresh_boundary 7 ⟨"AdjClose", [7], [100], none⟩).1 (by decide),
    (is_fresh_boundary 7 ⟨"AdjClose", [6], [100], none⟩).2.1 (by decide),
    (is_fresh_boundary 7 ⟨"AdjClose", [], [], none⟩).2.2 rfl⟩

/-- C9: `CacheManager.save` stamps the configured schema version on the
caller's in-memory frame itself (the mutated argument object, returned as
the first component), not only on the persisted copy. -/
theorem save_stamps_caller_frame (cm : CacheManager) (df : DF) (ticker : String)
    (fs : FS) :
    ((save cm df ticker fs).1).schemaVersion = some cm.schema_version
    ∧ (save cm df ticker fs).1 = { df with schemaVersion := some cm.schema_version }
    ∧ (save cm df ticker fs).2 (get_cache_path cm ticker)
        = some ⟨(save cm df ticker fs).1, false⟩ := by
  refine ⟨rfl, rfl, ?_⟩
  simp [save, FS.set]

/-- When the cache has no present-and-fresh entry, `Asset.fetch` runs the
download path. -/
lemma fetch_eq_download (a : Asset) (today : Int) (hist : RawTable) (fs : FS)
    (hstale : ∀ df, load a.cache_manager a.ticker fs = some df →
      is_fresh df today = false) :
    Asset.fetch a today hist fs = downloadAndNormalize a.cache_manager a.ticker hist fs := by
  unfold Asset.fetch
  cases hl : load a.cache_manager a.ticker fs with
  | none => rfl
  | some cached => simp [hstale cached hl]

/-- C5: a present-and-fresh cached entry is adopted as the series and
returned with no provider download and no cache write; consequently a
second `fetch` while the cache is fresh never invokes the provider. -/
theorem fetch_fresh_cache_no_download (a : Asset) (today today' : Int)
    (hist hist' : RawTable) (fs : FS) (df : DF)
    (hload : load a.cache_manager a.ticker fs = some df)
    (hfresh : is_fresh df today = true) :
    Asset.fetch a today hist fs = ⟨some df, fs, false⟩
    ∧ (is_fresh df today' = true →
        (Asset.fetch a today' hist' (Asset.fetch a today hist fs).fs).downloaded
          = false) := by
  have h1 : Asset.fetch a today hist fs = ⟨some df, fs, false⟩ := by
    unfold Asset.fetch
    simp [hload, hfresh]
  refine ⟨h1, fun hfresh' => ?_⟩
  rw [h1]
  show (Asset.fetch a today' hist' fs).downloaded = false
  unfold Asset.fetch
  simp [hload, hfresh']

/-- Witness for C5: a cache current through Monday day 7 is adopted twice
with no download. -/
theorem fetch_fresh_cache_no_download_witness :
    Asset.fetch sampleAsset 7 rawAdj fsFresh = ⟨some freshDF, fsFresh, false⟩
    ∧ (Asset.fetch sampleAsset 7 rawAdj
        (Asset.fetch sampleAsset 7 rawAdj fsFresh).fs).downloaded = false := by
  have h := fetch_fresh_cache_no_download sampleAsset 7 7 rawAdj rawAdj fsFresh freshDF
    (by decide) (by decide)
  exact ⟨h.1, h.2 (by decide)⟩

/-- C8: with no fresh cache entry, an empty provider result or a raw
table without a usable price column makes `Asset.fetch` return absence,
invoke no cache write, and leave the cache directory unchanged. -/
theorem fetch_failure_no_cache_write (a : Asset) (today : Int) (hist : RawTable)
    (fs : FS)
    (hstale : ∀ df, load a.cache_manager a.ticker fs = some df →
      is_fresh df today = false) :
    (hist.index = [] → Asset.fetch a today hist fs = ⟨none, fs, true⟩)
    ∧ (lookupA hist.cols "Adj Close" = none → lookupA hist.cols "Close" = none →
        Asset.fetch a today hist fs = ⟨none, fs, true⟩) := by
  rw [fetch_eq_download a today hist fs hstale]
  constructor
  · intro hnil
    simp [downloadAndNormalize, hnil]
  · intro hadj hclose
    unfold downloadAndNormalize
    by_cases hempty : hist.index.isEmpty
    · simp [hempty]
    · simp [hempty, hadj, hclose]

/-- Witness for C8: an empty provider table and an `Open`-only table both
yield absence and leave the empty cache directory untouched. -/
theorem fetch_failure_no_cache_write_witness :
    Asset.fetch sampleAsset 7 rawEmpty emptyFS = ⟨none, emptyFS, true⟩
    ∧ Asset.fetch sampleAsset 7 rawNoCol emptyFS = ⟨none, emptyFS, true⟩ := by
  have hstale : ∀ df, load sampleCM "TEST" emptyFS = some df →
      is_fresh df 7 = false := by
    intro df h
    rw [show load sampleCM "TEST" emptyFS = none from rfl] at h
    exact Option.noConfusion h
  exact ⟨(fetch_failure_no_cache_write sampleAsset 7 rawEmpty emptyFS hstale).1 rfl,
    (fetch_failure_no_cache_write sampleAsset 7 rawNoCol emptyFS hstale).2 rfl rfl⟩

/-- C6: `Asset.fetch` selects the adjusted-close column when present,
otherwise the plain close column, and names the output column `AdjClose`
in both cases; with neither column the ticker yields no result. -/
theorem fetch_column_selection (a : Asset) (today : Int) (hist : RawTable) (fs : FS)
    (hstale : ∀ df, load a.cache_manager a.ticker fs = some df →
      is_fresh df today = false)
    (hne : hist.index ≠ []) :
    (∀ v, lookupA hist.cols "Adj Close" = some v →
      ∃ df, (Asset.fetch a today hist fs).df = some df
        ∧ df.colName = "AdjClose" ∧ df.prices = v)
    ∧ (∀ v, lookupA hist.cols "Adj Close" = none →
        lookupA hist.cols "Close" = some v →
      ∃ df, (Asset.fetch a today hist fs).df = some df
        ∧ df.colName = "AdjClose" ∧ df.prices = v)
    ∧ (lookupA hist.cols "Adj Close" = none → lookupA hist.cols "Close" = none →
        (Asset.fetch a today hist fs).df = none) := by
  rw [fetch_eq_download a today hist fs hstale]
  have hempty : hist.index.isEmpty = false := by
    simpa using hne
  refine ⟨fun v hadj => ?_, fun v hadj hclose => ?_, fun hadj hclose => ?_⟩
  · refine ⟨⟨"AdjClose",
      (match hist.tzOffset with
        | some o => hist.index.map (fun w => w - o)
        | none => hist.index).map (fun t : Int => t.fdiv 24),
      v, some a.cache_manager.schema_version⟩, ?_, rfl, rfl⟩
    simp [downloadAndNormalize, hempty, hadj, save]
  · refine ⟨⟨"AdjClose",
      (match hist.tzOffset with
        | some o => hist.index.map (fun w => w - o)
        | none => hist.index).map (fun t : Int => t.fdiv 24),
      v, some a.cache_manager.schema_version⟩, ?_, rfl, rfl⟩
    simp [downloadAndNormalize, hempty, hadj, hclose, save]
  · simp [downloadAndNormalize, hempty, hadj, hclose]

/-- Witness for C6: an `Adj Close`-only table and a `Close`-only table
both yield an `AdjClose` column carrying the source values; an
`Open`-only table yields no result. -/
theorem fetch_column_selection_witness :
    ((Asset.fetch sampleAsset 7 rawAdj emptyFS).df.map DF.colName = some "AdjClose")
    ∧ ((Asset.fetch sampleAsset 7 rawAdj emptyFS).df.map DF.prices = some [100, 105])
    ∧ ((Asset.fetch sampleAsset 7 rawClose emptyFS).df.map DF.colName = some "AdjClose")
    ∧ ((Asset.fetch sampleAsset 7 rawClose emptyFS).df.map DF.prices = some [100])
    ∧ ((Asset.fetch sampleAsset 7 rawNoCol emptyFS).df = none) := by
  have hstale : ∀ df, load sampleCM "TEST" emptyFS = some df →
      is_fresh df 7 = false := by
    intro df h
    rw [show load sampleCM "TEST" emptyFS = none from rfl] at h
    exact Option.noConfusion h
  obtain ⟨dfa, ha, hac, hap⟩ :=
    (fetch_column_selection sampleAsset 7 rawAdj emptyFS hstale (by decide)).1
      [100, 105] rfl
  obtain ⟨dfc, hc, hcc, hcp⟩ :=
    (fetch_column_selection sampleAsset 7 rawClose emptyFS hstale (by decide)).2.1
      [100] rfl rfl
  have hn :=
    (fetch_column_selection sampleAsset 7 rawNoCol emptyFS hstale (by decide)).2.2
      rfl rfl
  rw [ha, hc]
  exact ⟨by simp [hac], by simp [hap], by simp [hcc], by simp [hcp], hn⟩

/-- C7: a frame produced by the download path from a timezone-aware raw
table has each date equal to the UTC calendar date of the original
instant (convert the wall-clock reading to UTC, strip the zone, truncate
to the day); a timezone-naive index is only date-truncated. -/
theorem fetch_timezone_normalization (a : Asset) (today : Int) (hist : RawTable)
    (fs : FS) (df : DF)
    (hstale : ∀ c, load a.cache_manager a.ticker fs = some c →
      is_fresh c today = false)
    (hdf : (Asset.fetch a today hist fs).df = some df) :
    (∀ o, hist.tzOffset = some o →
      df.dates = hist.index.map (fun w => (w - o).fdiv 24))
    ∧ (hist.tzOffset = none →
      df.dates = hist.index.map (fun w => w.fdiv 24)) := by
  rw [fetch_eq_download a today hist fs hstale] at hdf
  unfold downloadAndNormalize at hdf
  by_cases hempty : hist.index.isEmpty
  · rw [if_pos hempty] at hdf
    exact Option.noConfusion hdf
  · rw [if_neg hempty] at hdf
    cases hsel : (match lookupA hist.cols "Adj Close" with
        | some v => some v
        | none => lookupA hist.cols "Close") with
    | none =>
        rw [hsel] at hdf
        exact Option.noConfusion hdf
    | some v =>
        rw [hsel] at hdf
        simp only [save] at hdf
        injection hdf with h
        subst h
        refine ⟨fun o ho => ?_, fun ho => ?_⟩
        · show (match hist.tzOffset with
              | some o' => hist.index.map (fun w => w - o')
              | none => hist.index).map (fun t : Int => t.fdiv 24)
            = hist.index.map (fun w => (w - o).fdiv 24)
          simp only [ho]
          rw [List.map_map]
          rfl
        · show (match hist.tzOffset with
              | some o' => hist.index.map (fun w => w - o')
              | none => hist.index).map (fun t : Int => t.fdiv 24)
            = hist.index.map (fun w => w.fdiv 24)
          simp only [ho]

/-- Witness for C7: the UTC+2 table `rawTz` with wall-clock hours 1 and
26 yields UTC calendar dates −1 and 1. -/
theorem fetch_timezone_normalization_witness :
    tzDF.dates = rawTz.index.map (fun w => (w - 2).fdiv 24) := by
  have hstale : ∀ c, load sampleCM "TEST" emptyFS = some c →
      is_fresh c 7 = false := by
    intro c h
    rw [show load sampleCM "TEST" emptyFS = none from rfl] at h
    exact Option.noConfusion h
  exact (fetch_timezone_normalization sampleAsset 7 rawTz emptyFS tzDF hstale
    (by decide)).1 2 rfl

/-! ### Lemmas on the futures mapping and result assembly -/

lemma lookupA_mkFutures (config : List String) (outcome : String → FetchOutcome)
    (t : String) (ht : t ∈ config) :
    lookupA (mkFutures config outcome) t = some (outcome t) := by
  induction config with
  | nil => cases ht
  | cons h rest ih =>
      by_cases hh : h = t
      · subst hh
        simp [mkFutures, lookupA]
      · have ht' : t ∈ rest := by
          cases ht with
          | head => exact absurd rfl hh
          | tail _ h' => exact h'
        simpa [mkFutures, lookupA, hh] using ih ht'

lemma lookupA_eq_none_iff {β : Type} (l : List (String × β)) (k : String) :
    lookupA l k = none ↔ ∀ p ∈ l, p.1 ≠ k := by
  induction l with
  | nil => simp [lookupA]
  | cons hd rest ih =>
      obtain ⟨k', v⟩ := hd
      by_cases hk : k' = k
      · subst hk
        simp [lookupA]
      · simp [lookupA, hk, ih]

lemma lookupA_mem {β : Type} {l : List (String × β)} {k : String} {v : β}
    (h : lookupA l k = some v) : (k, v) ∈ l := by
  induction l with
  | nil => cases h
  | cons hd rest ih =>
      obtain ⟨k', v'⟩ := hd
      by_cases hk : k' = k
      · subst hk
        rw [lookupA, if_pos rfl] at h
        injection h with h'
        subst h'
        exact List.mem_cons_self _ _
      · rw [lookupA, if_neg hk] at h
        exact List.mem_cons_of_mem _ (ih h)

lemma mem_lookupA {β : Type} {l : List (String × β)} {k : String} {v : β}
    (hnd : (l.map Prod.fst).Nodup) (h : (k, v) ∈ l) : lookupA l k = some v := by
  induction l with
  | nil => cases h
  | cons hd rest ih =>
      obtain ⟨k', v'⟩ := hd
      rw [List.map_cons, List.nodup_cons] at hnd
      cases h with
      | head => simp [lookupA]
      | tail _ hmem =>
          have hk : k' ≠ k := by
            intro hk
            subst hk
            exact hnd.1 (List.mem_map.mpr ⟨(k', v), hmem, rfl⟩)
          rw [lookupA, if_neg hk]
          exact ih hnd.2 hmem

/-- Looking a key up in any permutation of an association list with
distinct keys gives the same answer. -/
lemma lookupA_perm {β : Type} {l₁ l₂ : List (String × β)} (hperm : l₁.Perm l₂)
    (hnd : (l₂.map Prod.fst).Nodup) (k : String) :
    lookupA l₁ k = lookupA l₂ k := by
  have hnd₁ : (l₁.map Prod.fst).Nodup := ((hperm.map Prod.fst).nodup_iff).mpr hnd
  cases hc : lookupA l₂ k with
  | some v => exact mem_lookupA hnd₁ (hperm.mem_iff.mpr (lookupA_mem hc))
  | none =>
      rw [lookupA_eq_none_iff] at hc ⊢
      intro p hp
      exact hc p (hperm.subset hp)

lemma mkFutures_keys (config : List String) (outcome : String → FetchOutcome) :
    (mkFutures config outcome).map Prod.fst = config := by
  rw [mkFutures, List.map_map]
  exact List.map_id' config

/-- When every lookup answers with the ticker's outcome and no task
raised, assembly succeeds and keeps, in configuration order, exactly the
tickers whose task returned a frame. -/
lemma assembleResults_ok (outcome : String → FetchOutcome) :
    ∀ (cfg : List String) (futures : List (String × FetchOutcome)),
      (∀ t ∈ cfg, lookupA futures t = some (outcome t)) →
      (∀ t ∈ cfg, (outcome t).isExn = false) →
      assembleResults cfg futures = Except.ok (cfg.filterMap (fun t =>
        match outcome t with
        | .ok (some df) => some (t, df)
        | _ => none)) := by
  intro cfg
  induction cfg with
  | nil => intro futures _ _; rfl
  | cons t rest ih =>
      intro futures hlook hnoexn
      have hl := hlook t (List.mem_cons_self t rest)
      have hrest_look : ∀ u ∈ rest, lookupA futures u = some (outcome u) :=
        fun u hu => hlook u (List.mem_cons_of_mem _ hu)
      have hrest_ne : ∀ u ∈ rest, (outcome u).isExn = false :=
        fun u hu => hnoexn u (List.mem_cons_of_mem _ hu)
      cases ho : outcome t with
      | exn e =>
          have := hnoexn t (List.mem_cons_self t rest)
          rw [ho] at this
          exact absurd this (by simp [FetchOutcome.isExn])
      | ok odf =>
          rw [ho] at hl
          cases odf with
          | none =>
              simp only [assembleResults, hl, List.filterMap_cons, ho]
              exact ih futures hrest_look hrest_ne
          | some df =>
              simp only [assembleResults, hl, List.filterMap_cons, ho]
              rw [ih futures hrest_look hrest_ne]

/-- When the first raising ticker in configuration order is reached,
`future.result()` re-raises its exception and assembly aborts. -/
lemma assembleResults_error (outcome : String → FetchOutcome) :
    ∀ (pre : List String) (t : String) (post : List String) (e : String)
      (futures : List (String × FetchOutcome)),
      (∀ u ∈ pre ++ t :: post, lookupA futures u = some (outcome u)) →
      (∀ u ∈ pre, (outcome u).isExn = false) →
      outcome t = .exn e →
      assembleResults (pre ++ t :: post) futures = Except.error e := by
  intro pre
  induction pre with
  | nil =>
      intro t post e futures hlook _ hexn
      have hl := hlook t (List.mem_cons_self t post)
      rw [hexn] at hl
      simp [assembleResults, hl]
  | cons u pre' ih =>
      intro t post e futures hlook hpre hexn
      have hl := hlook u (List.mem_cons_self u _)
      have htail : assembleResults (pre' ++ t :: post) futures = Except.error e := by
        refine ih t post e futures (fun w hw => hlook w (List.mem_cons_of_mem _ hw))
          (fun w hw => hpre w (List.mem_cons_of_mem _ hw)) hexn
      have hu := hpre u (List.mem_cons_self u pre')
      cases ho : outcome u with
      | exn m =>
          rw [ho] at hu
          exact absurd hu (by simp [FetchOutcome.isExn])
      | ok odf =>
          rw [ho] at hl
          cases odf with
          | none =>
              simpa [assembleResults, hl] using htail
          | some df =>
              simp only [List.cons_append, assembleResults, hl]
              have htail' : assembleResults (List.append pre' (t :: post)) futures
                  = Except.error e := htail
              rw [htail']

lemma filterMap_keys (outcome : String → FetchOutcome) :
    ∀ cfg : List String,
      (cfg.filterMap (fun t =>
        match outcome t with
        | .ok (some df) => some (t, df)
        | _ => none)).map Prod.fst
      = cfg.filter (fun t => (outcome t).yields) := by
  intro cfg
  induction cfg with
  | nil => rfl
  | cons t rest ih =>
      cases ho : outcome t with
      | exn e => simp [List.filterMap_cons, List.filter_cons, ho, FetchOutcome.yields, ih]
      | ok odf =>
          cases odf with
          | none => simp [List.filterMap_cons, List.filter_cons, ho, FetchOutcome.yields, ih]
          | some df => simp [List.filterMap_cons, List.filter_cons, ho, FetchOutcome.yields, ih]

/-- C2: when every task returns (no exception), the batch result exists
and its keys are exactly the input tickers whose fetch yielded a series,
in the original input order, whatever completion order the futures are
observed in (any permutation of the futures mapping assembles to the
same result). -/
theorem load_assets_order_preserved (config : List String)
    (outcome : String → FetchOutcome) (futures : List (String × FetchOutcome))
    (hperm : futures.Perm (mkFutures config outcome))
    (hnd : config.Nodup)
    (hnoexn : ∀ t ∈ config, (outcome t).isExn = false) :
    ∃ res, load_assets config outcome = Except.ok res
      ∧ assembleResults config futures = Except.ok res
      ∧ res.map Prod.fst = config.filter (fun t => (outcome t).yields) := by
  have hndk : ((mkFutures config outcome).map Prod.fst).Nodup := by
    rw [mkFutures_keys]
    exact hnd
  have hlook : ∀ t ∈ config, lookupA (mkFutures config outcome) t = some (outcome t) :=
    fun t ht => lookupA_mkFutures config outcome t ht
  have hlook' : ∀ t ∈ config, lookupA futures t = some (outcome t) := by
    intro t ht
    rw [lookupA_perm hperm hndk t]
    exact hlook t ht
  refine ⟨_, assembleResults_ok outcome config _ hlook hnoexn,
    assembleResults_ok outcome config futures hlook' hnoexn, filterMap_keys outcome config⟩

/-- Witness for C2: configuration `[AAA, BBB, CCC]` with CCC yielding no
series, observed through a futures list in reversed completion order,
assembles to keys `[AAA, BBB]` in that order. -/
theorem load_assets_order_preserved_witness :
    assembleResults cfgW futuresW = Except.ok [("AAA", sampleDF), ("BBB", sampleDF)]
    ∧ cfgW.filter (fun t => (outcomeW t).yields) = ["AAA", "BBB"] := by
  obtain ⟨res, h1, h2, h3⟩ := load_assets_order_preserved cfgW outcomeW futuresW
    (by decide) (by decide) (by decide)
  have hc : load_assets cfgW outcomeW
      = Except.ok [("AAA", sampleDF), ("BBB", sampleDF)] := rfl
  rw [hc] at h1
  injection h1 with h1'
  subst h1'
  exact ⟨h2, by rw [← h3]; rfl⟩

/-- C1 counterexample: a provider exception in BBB's task is re-raised by
`load_assets` to the batch caller (the batch result is the exception, not
a mapping omitting BBB), refuting the claim that such a failure is
absorbed at the ticker level. -/
theorem load_assets_exception_escapes :
    load_assets ["AAA", "BBB"] outcomeE = Except.error "ProviderFailure" := by
  rfl

/-- C1 (amended): per-ticker failures that surface as a returned absence
are absorbed and reported only via absent keys, leaving sibling tickers
unaffected; but an exception raised inside a ticker's fetch task is
re-raised by `load_assets` to the batch caller — it aborts the batch at
the first raising ticker in input order. -/
theorem load_assets_exception_policy (config : List String)
    (outcome : String → FetchOutcome) :
    ((∀ t ∈ config, (outcome t).isExn = false) →
      load_assets config outcome = Except.ok (config.filterMap (fun t =>
        match outcome t with
        | .ok (some df) => some (t, df)
        | _ => none)))
    ∧ (∀ pre t post e, config = pre ++ t :: post →
        (∀ u ∈ pre, (outcome u).isExn = false) →
        outcome t = FetchOutcome.exn e →
        load_assets config outcome = Except.error e) := by
  constructor
  · intro hnoexn
    exact assembleResults_ok outcome config _
      (fun t ht => lookupA_mkFutures config outcome t ht) hnoexn
  · intro pre t post e hcfg hpre hexn
    subst hcfg
    exact assembleResults_error outcome pre t post e _
      (fun u hu => lookupA_mkFutures _ outcome u hu) hpre hexn

/-- Witness for the amended C1: absence-only failures are absorbed
(`CCC` absent), and an exception in `BBB`'s task aborts a batch. -/
theorem load_assets_exception_policy_witness :
    load_assets cfgW outcomeW
      = Except.ok [("AAA", sampleDF), ("BBB", sampleDF)]
    ∧ load_assets ["AAA", "BBB"] outcomeE = Except.error "ProviderFailure" := by
  refine ⟨?_, ?_⟩
  · have h := (load_assets_exception_policy cfgW outcomeW).1 (by decide)
    rw [h]
    rfl
  · exact (load_assets_exception_policy ["AAA", "BBB"] outcomeE).2
      ["AAA"] "BBB" [] "ProviderFailure" rfl (by decide) (by decide)

/-! ### Lemmas on the `safe_filename` character pipeline -/

lemma stripWhile_subset (p : Char → Bool) (l : List Char) :
    ∀ c ∈ stripWhile p l, c ∈ l := by
  intro c hc
  have h1 : c ∈ List.dropWhile p l :=
    (( List.rdropWhile_prefix p (List.dropWhile p l)).sublist).subset hc
  exact ((List.dropWhile_suffix p).sublist).subset h1

lemma stripWhile_head (p : Char → Bool) (l : List Char) {c : Char}
    (h : (stripWhile p l).head? = some c) : p c = false := by
  simp only [stripWhile] at h
  obtain ⟨t, ht⟩ := List.rdropWhile_prefix p (List.dropWhile p l)
  cases hr : List.rdropWhile p (List.dropWhile p l) with
  | nil => rw [hr] at h; cases h
  | cons a r' =>
      rw [hr] at h
      simp only [List.head?_cons] at h
      injection h with hac
      have hne : List.dropWhile p l ≠ [] := by
        rw [← ht, hr]
        simp
      have h2 := List.head_dropWhile_not p l hne
      have h4 : (List.dropWhile p l).head? = some a := by
        rw [← ht, hr, List.cons_append]
        rfl
      rw [List.head?_eq_head hne] at h4
      injection h4 with h5
      rw [h5] at h2
      rw [← hac]
      simpa using h2

lemma stripWhile_getLast (p : Char → Bool) (l : List Char) {c : Char}
    (h : (stripWhile p l).getLast? = some c) : p c = false := by
  simp only [stripWhile] at h
  have hne : List.rdropWhile p (List.dropWhile p l) ≠ [] := by
    intro hnil
    rw [hnil] at h
    cases h
  rw [List.getLast?_eq_getLast _ hne] at h
  injection h with h4
  have h2 := List.rdropWhile_last_not p (List.dropWhile p l) hne
  rw [h4] at h2
  simpa using h2

lemma collapseUnderscores_subset :
    ∀ (l : List Char), ∀ c ∈ collapseUnderscores l, c ∈ l := by
  intro l
  induction l with
  | nil => intro c hc; cases hc
  | cons a t ih =>
      cases t with
      | nil => intro c hc; simpa [collapseUnderscores] using hc
      | cons b u =>
          intro c hc
          rw [show collapseUnderscores (a :: b :: u)
              = if a = '_' ∧ b = '_' then collapseUnderscores (b :: u)
                else a :: collapseUnderscores (b :: u) from rfl] at hc
          by_cases hab : a = '_' ∧ b = '_'
          · rw [if_pos hab] at hc
            exact List.mem_cons_of_mem _ (ih c hc)
          · rw [if_neg hab] at hc
            cases hc with
            | head => exact List.mem_cons_self _ _
            | tail _ hmem => exact List.mem_cons_of_mem _ (ih c hmem)

lemma stripPred_false {c : Char} (h : stripPred c = false) : c ≠ '_' ∧ c ≠ '.' := by
  simp [stripPred] at h
  exact h

/-- C10: every character of a `safe_filename` result lies in the allowed
class `[A-Za-z0-9._-]` — in particular no path separator, space, or
other character survives — and the result neither starts nor ends with an
underscore or a dot. -/
theorem safe_filename_charset (nfkd : String → String) (s : String) :
    (∀ c ∈ (safe_filename nfkd s).toList, isAllowedChar c = true)
    ∧ (∀ c, (safe_filename nfkd s).toList.head? = some c → c ≠ '_' ∧ c ≠ '.')
    ∧ (∀ c, (safe_filename nfkd s).toList.getLast? = some c → c ≠ '_' ∧ c ≠ '.')
    ∧ (∀ c ∈ (safe_filename nfkd s).toList, c ≠ '/' ∧ c ≠ '\\' ∧ c ≠ ' ') := by
  obtain ⟨l2, hl2⟩ : ∃ l2 : List Char, (safe_filename nfkd s).toList
      = stripWhile stripPred (collapseUnderscores (l2.filter isAllowedChar)) :=
    ⟨((stripWhile pyIsSpace ((nfkd s).toList.filter (fun c => c.toNat ≤ 127))).map
        (fun c => if c = ' ' then '_' else c)).filter
        (fun c => !(specialChars.contains c)), rfl⟩
  rw [hl2]
  have hallowed : ∀ c ∈ stripWhile stripPred
      (collapseUnderscores (l2.filter isAllowedChar)), isAllowedChar c = true := by
    intro c hc
    have h3 : c ∈ l2.filter isAllowedChar :=
      collapseUnderscores_subset _ c (stripWhile_subset _ _ c hc)
    exact (List.mem_filter.mp h3).2
  refine ⟨hallowed, ?_, ?_, ?_⟩
  · intro c hc
    exact stripPred_false (stripWhile_head stripPred _ hc)
  · intro c hc
    exact stripPred_false (stripWhile_getLast stripPred _ hc)
  · intro c hc
    have hall := hallowed c hc
    refine ⟨?_, ?_, ?_⟩ <;> intro heq <;> rw [heq] at hall <;>
      exact absurd hall (by decide)

/-- Witness for C10 on the input `"S&P 500"` (sanitized to `"SP_500"`). -/
theorem safe_filename_charset_witness :
    isAllowedChar 'S' = true ∧ ('S' : Char) ≠ '_' := by
  have h := safe_filename_charset (fun x => x) "S&P 500"
  have hm : 'S' ∈ (safe_filename (fun x => x) "S&P 500").toList := by decide
  have hh : (safe_filename (fun x => x) "S&P 500").toList.head? = some 'S' := by
    decide
  exact ⟨h.1 'S' hm, (h.2.1 'S' hh).1⟩

end MarketAnalysis
